import Mathlib

/-!
Verification of the cutr selection-specification parser and extraction
engine (src/lib.rs).  Strings are modelled as lists of characters, Rust
`usize` as `Nat` with the explicit bound `USIZE_MAX`, a Rust
`Range<usize>` as a pair `(start, stop)` standing for the half-open
interval `[start, stop)`, and fallible code returns `Except` with the
rendered error message.
-/

set_option autoImplicit false

/-- Rust `usize::MAX` on a 64-bit platform. -/
def USIZE_MAX : Nat := 2 ^ 64 - 1

/-- Rust `str::split` with a single-character pattern: splits at every
occurrence of the separator, keeping empty segments (`",".split(',')`
yields two empty strings). -/
def splitOnChar (c : Char) : List Char → List (List Char)
  | [] => [[]]
  | x :: xs =>
    if x = c then [] :: splitOnChar c xs
    else
      match splitOnChar c xs with
      | [] => [[x]]
      | h :: t => (x :: h) :: t

/-- Joins parts with a separator character; inverse of `splitOnChar` on
parts that do not contain the separator. -/
def intercalateChar (c : Char) : List (List Char) → List Char
  | [] => []
  | [p] => p
  | p :: q :: ps => p ++ c :: intercalateChar c (q :: ps)

/-- Numeric value of a decimal digit character. -/
def digitVal (c : Char) : Nat := c.toNat - 48

/-- Decimal value of a digit string, accumulated left to right. -/
def valFromDigits (s : List Char) : Nat :=
  s.foldl (fun a c => 10 * a + digitVal c) 0

/-- Rust `str::parse::<usize>()` restricted to the inputs the parser can
reach (a leading `+` is rejected before this runs): succeeds exactly on a
nonempty all-ASCII-digit string whose value fits in `usize`. -/
def natFromDigits (s : List Char) : Option Nat :=
  if s = [] then none
  else if s.all Char.isDigit then
    if valFromDigits s ≤ USIZE_MAX then some (valFromDigits s) else none
  else none

/-- Decimal digits of a natural number (Rust `format!` of a `usize`). -/
def natToDigits (n : Nat) : List Char :=
  if n < 10 then [Char.ofNat (48 + n)]
  else natToDigits (n / 10) ++ [Char.ofNat (48 + n % 10)]
termination_by n
decreasing_by exact Nat.div_lt_self (by omega) (by omega)

/-- Message produced by the `value_error` closure in `parse_pos`
(lib.rs line 139-141). -/
def valueError (v : List Char) : List Char :=
  "illegal list value: \"".toList ++ v ++ ['"']

/-- Message produced for an inverted range (lib.rs line 176). -/
def invertedError (lower upper : Nat) : List Char :=
  "First number in range (".toList ++ natToDigits lower ++
    ") must be lower than second number (".toList ++ natToDigits upper ++ [')']

/-- One endpoint of a part, mirroring the closure in `parse_pos`
(lib.rs lines 156-165): reject a leading `+`, parse as `usize`
(failure and overflow give the illegal-value error naming the part),
then reject the value 0 with the canonical text `"0"`. -/
def parseEndpoint (part endpoint : List Char) : Except (List Char) Nat :=
  if endpoint.head? = some '+' then .error (valueError part)
  else
    match natFromDigits endpoint with
    | none => .error (valueError part)
    | some bound =>
      if bound = 0 then .error (valueError ['0']) else .ok bound

/-- Rust `Iterator::collect::<Result<Vec<_>, _>>()`: apply `f` left to
right, stopping at the first error. -/
def collectExcept {α β ε : Type} (f : α → Except ε β) : List α → Except ε (List β)
  | [] => .ok []
  | a :: as =>
    match f a with
    | .error e => .error e
    | .ok b => (collectExcept f as).map (b :: ·)

/-- One comma-separated part of the selection string (the body of the
`for part in parts` loop, lib.rs lines 148-179).  `range` is the whole
original selection string, used by the error messages that embed it.
The `| _ =>` fallback is unreachable: `splitOnChar` never returns `[]`
and the guard keeps at most two segments. -/
def parsePart (range part : List Char) : Except (List Char) (Nat × Nat) :=
  if part = [] then .error (valueError range)
  else
    let interval := splitOnChar '-' part
    if interval.length > 2 then .error (valueError range)
    else
      match collectExcept (parseEndpoint part) interval with
      | .error e => .error e
      | .ok bounds =>
        match bounds with
        | [lower] => .ok (lower - 1, lower)
        | [lower, upper] =>
          if upper = 0 then .error (valueError ['0'])
          else if lower ≥ upper then .error (invertedError lower upper)
          else .ok (lower - 1, upper)
        | _ => .error (valueError range)

/-- The `for part in parts` loop of `parse_pos`, with `list` the vector
accumulated so far. -/
def parseLoop (range : List Char) : List (List Char) → List (Nat × Nat) →
    Except (List Char) (List (Nat × Nat))
  | [], list => .ok list
  | part :: parts, list =>
    match parsePart range part with
    | .error e => .error e
    | .ok r => parseLoop range parts (list ++ [r])

/-- parse_pos (lib.rs lines 138-182). -/
def parse_pos (range : List Char) : Except (List Char) (List (Nat × Nat)) :=
  if range = [] then .error "position lists cannot be empty".toList
  else parseLoop range (splitOnChar ',' range) []

/-- Indices iterated by a Rust `Range<usize>` `s..e`: the list
`[s, s+1, ..., e-1]` (empty when `e ≤ s`). -/
def countFrom (s : Nat) : Nat → List Nat
  | 0 => []
  | k + 1 => s :: countFrom (s + 1) k

/-- Index list of a half-open range. -/
def rangeIndices (r : Nat × Nat) : List Nat := countFrom r.1 (r.2 - r.1)

/-- extract_chars (lib.rs lines 184-192): for each range, keep the
characters whose index is in bounds, concatenated over the ranges in
the given order. -/
def extract_chars (line : List Char) (char_pos : List (Nat × Nat)) : List Char :=
  (char_pos.map fun r => (rangeIndices r).filterMap fun i => line.get? i).flatten

/-- UTF-8 bytes of one Unicode scalar value. -/
def utf8Encode (c : Char) : List Nat :=
  let n := c.toNat
  if n < 0x80 then [n]
  else if n < 0x800 then [0xC0 + n / 64, 0x80 + n % 64]
  else if n < 0x10000 then
    [0xE0 + n / 4096, 0x80 + n / 64 % 64, 0x80 + n % 64]
  else
    [0xF0 + n / 262144, 0x80 + n / 4096 % 64, 0x80 + n / 64 % 64, 0x80 + n % 64]

/-- Rust `str::as_bytes`: the UTF-8 byte sequence of a string. -/
def strBytes (line : List Char) : List Nat := (line.map utf8Encode).flatten

/-- The replacement character U+FFFD emitted by lossy decoding. -/
def repChar : Char := Char.ofNat 0xFFFD

/-- Worker for `utf8Lossy`: structural recursion on a fuel bound.  Each
step consumes at least one byte and one unit of fuel, so fuel of the
byte-list length never runs out. -/
def utf8LossyAux : Nat → List Nat → List Char
  | 0, _ => []
  | fuel + 1, bytes =>
    match bytes with
    | [] => []
    | b :: rest =>
    if b < 0x80 then Char.ofNat b :: utf8LossyAux fuel rest
    else if 0xC2 ≤ b ∧ b ≤ 0xDF then
      match rest with
      | [] => [repChar]
      | b2 :: r2 =>
        if 0x80 ≤ b2 ∧ b2 ≤ 0xBF then
          Char.ofNat ((b - 0xC0) * 64 + (b2 - 0x80)) :: utf8LossyAux fuel r2
        else repChar :: utf8LossyAux fuel rest
    else if 0xE0 ≤ b ∧ b ≤ 0xEF then
      match rest with
      | [] => [repChar]
      | b2 :: r2 =>
        if (if b = 0xE0 then 0xA0 ≤ b2 ∧ b2 ≤ 0xBF
            else if b = 0xED then 0x80 ≤ b2 ∧ b2 ≤ 0x9F
            else 0x80 ≤ b2 ∧ b2 ≤ 0xBF) then
          match r2 with
          | [] => [repChar]
          | b3 :: r3 =>
            if 0x80 ≤ b3 ∧ b3 ≤ 0xBF then
              Char.ofNat ((b - 0xE0) * 4096 + (b2 - 0x80) * 64 + (b3 - 0x80)) ::
                utf8LossyAux fuel r3
            else repChar :: utf8LossyAux fuel r2
        else repChar :: utf8LossyAux fuel rest
    else if 0xF0 ≤ b ∧ b ≤ 0xF4 then
      match rest with
      | [] => [repChar]
      | b2 :: r2 =>
        if (if b = 0xF0 then 0x90 ≤ b2 ∧ b2 ≤ 0xBF
            else if b = 0xF4 then 0x80 ≤ b2 ∧ b2 ≤ 0x8F
            else 0x80 ≤ b2 ∧ b2 ≤ 0xBF) then
          match r2 with
          | [] => [repChar]
          | b3 :: r3 =>
            if 0x80 ≤ b3 ∧ b3 ≤ 0xBF then
              match r3 with
              | [] => [repChar]
              | b4 :: r4 =>
                if 0x80 ≤ b4 ∧ b4 ≤ 0xBF then
                  Char.ofNat ((b - 0xF0) * 262144 + (b2 - 0x80) * 4096 +
                      (b3 - 0x80) * 64 + (b4 - 0x80)) :: utf8LossyAux fuel r4
                else repChar :: utf8LossyAux fuel r3
            else repChar :: utf8LossyAux fuel r2
        else repChar :: utf8LossyAux fuel rest
    else repChar :: utf8LossyAux fuel rest

/-- Rust `String::from_utf8_lossy` over a byte list: decode UTF-8,
replacing each maximal invalid subpart with one U+FFFD, following the
byte-range table of `core::str` validation (overlong forms, surrogates
and values above U+10FFFF are invalid). -/
def utf8Lossy (bytes : List Nat) : List Char := utf8LossyAux bytes.length bytes

/-- extract_bytes (lib.rs lines 194-203): select raw bytes by index for
each range in order, then decode the concatenation lossily. -/
def extract_bytes (line : List Char) (byte_pos : List (Nat × Nat)) : List Char :=
  let bytes := strBytes line
  utf8Lossy
    ((byte_pos.map fun r => (rangeIndices r).filterMap fun i => bytes.get? i).flatten)

/-- extract_fields (lib.rs lines 205-213): for each range, keep the
record's fields whose index is in bounds, concatenated over the ranges
in the given order. -/
def extract_fields (record : List (List Char)) (field_pos : List (Nat × Nat)) :
    List (List Char) :=
  (field_pos.map fun r => (rangeIndices r).filterMap fun i => record.get? i).flatten

/-- Serialization of a position list back to the 1-based selection
notation described by the round-trip property: a width-1 range
`[N-1, N)` renders as `"N"`, a wider range `[L-1, U)` as `"L-U"`. -/
def serializeRange (r : Nat × Nat) : List Char :=
  if r.2 = r.1 + 1 then natToDigits (r.1 + 1)
  else natToDigits (r.1 + 1) ++ '-' :: natToDigits r.2

/-- Serialization of a whole position list: parts joined by commas. -/
def serializePositions (l : List (Nat × Nat)) : List Char :=
  intercalateChar ',' (l.map serializeRange)

/-- Endpoint text whose numeric parse succeeds with value 0 (the case the
parser reports with the canonical text `"0"`). -/
def zeroEndpoint (e : List Char) : Prop := natFromDigits e = some 0

/-- Endpoint text that is a nonempty digit string whose decimal value
exceeds `usize::MAX`, so Rust's `parse::<usize>()` fails with overflow. -/
def overflowEndpoint (e : List Char) : Prop :=
  e ≠ [] ∧ e.all Char.isDigit = true ∧ USIZE_MAX < valFromDigits e

/-- Within one comma-part, the first endpoint error the left-to-right
endpoint collection encounters satisfies `P`: either the part's first
dash-segment satisfies `P`, or the first segment parses successfully and
the second satisfies `P`.  Parts with more than two dash-segments never
reach endpoint parsing. -/
def endpointHitsFirst (P : List Char → Prop) (part : List Char) : Prop :=
  part ≠ [] ∧
    match splitOnChar '-' part with
    | [e] => P e
    | [e1, e2] => P e1 ∨ ((∃ v, parseEndpoint part e1 = .ok v) ∧ P e2)
    | _ => False

/-- The first endpoint error of the part is a zero endpoint. -/
def zeroHitsFirst (part : List Char) : Prop :=
  endpointHitsFirst zeroEndpoint part

/-- The first endpoint error of the part is an over-large endpoint. -/
def overflowHitsFirst (part : List Char) : Prop :=
  endpointHitsFirst overflowEndpoint part

/-! ### Lemmas about `splitOnChar` and `intercalateChar` -/

theorem splitOnChar_ne_nil (c : Char) (l : List Char) : splitOnChar c l ≠ [] := by
  induction l with
  | nil => simp [splitOnChar]
  | cons x xs ih =>
    simp only [splitOnChar]
    split
    · simp
    · cases h : splitOnChar c xs <;> simp

theorem splitOnChar_of_not_mem {c : Char} {l : List Char} (h : c ∉ l) :
    splitOnChar c l = [l] := by
  induction l with
  | nil => rfl
  | cons x xs ih =>
    simp only [List.mem_cons, not_or] at h
    simp only [splitOnChar, ih h.2]
    rw [if_neg (fun hx => h.1 hx.symm)]

theorem splitOnChar_append {c : Char} {a b : List Char} (h : c ∉ a) :
    splitOnChar c (a ++ c :: b) = a :: splitOnChar c b := by
  induction a with
  | nil => simp [splitOnChar]
  | cons x xs ih =>
    simp only [List.mem_cons, not_or] at h
    simp only [List.cons_append, splitOnChar, List.append_eq]
    rw [if_neg (fun hx => h.1 hx.symm), ih h.2]

theorem intercalateChar_cons (c : Char) (p : List Char) (ps : List (List Char)) :
    ∃ t, intercalateChar c (p :: ps) = p ++ t := by
  cases ps with
  | nil => exact ⟨[], by simp [intercalateChar]⟩
  | cons q qs => exact ⟨c :: intercalateChar c (q :: qs), rfl⟩

theorem splitOnChar_intercalateChar {c : Char} :
    ∀ parts : List (List Char), parts ≠ [] → (∀ p ∈ parts, c ∉ p) →
      splitOnChar c (intercalateChar c parts) = parts
  | [], h, _ => absurd rfl h
  | [p], _, hp => by
    simp only [intercalateChar]
    exact splitOnChar_of_not_mem (hp p (by simp))
  | p :: q :: ps, _, hp => by
    simp only [intercalateChar]
    rw [splitOnChar_append (hp p (by simp))]
    rw [splitOnChar_intercalateChar (q :: ps) (by simp)
      (fun x hx => hp x (List.mem_cons_of_mem p hx))]

/-! ### Lemmas about `countFrom` -/

theorem countFrom_oob {α : Type} (l : List α) :
    ∀ (k s : Nat), l.length ≤ s → (countFrom s k).filterMap l.get? = []
  | 0, s, _ => rfl
  | k + 1, s, h => by
    simp only [countFrom, List.filterMap_cons, List.get?_eq_none.mpr h]
    exact countFrom_oob l k (s + 1) (by omega)

theorem countFrom_add (a : Nat) : ∀ (s b : Nat),
    countFrom s (a + b) = countFrom s a ++ countFrom (s + a) b := by
  induction a with
  | zero => intro s b; simp [countFrom]
  | succ a ih =>
    intro s b
    have h1 : a + 1 + b = (a + b) + 1 := by omega
    rw [h1]
    simp only [countFrom, ih (s + 1) b, List.cons_append]
    have h2 : s + 1 + a = s + (a + 1) := by omega
    rw [h2]

/-! ### Lemmas about decimal digits -/

theorem digitChar_facts : ∀ d, d < 10 →
    (Char.ofNat (48 + d)).isDigit = true ∧ digitVal (Char.ofNat (48 + d)) = d ∧
      Char.ofNat (48 + d) ≠ '+' ∧ Char.ofNat (48 + d) ≠ '-' ∧
      Char.ofNat (48 + d) ≠ ',' := by decide

theorem natToDigits_ne_nil (n : Nat) : natToDigits n ≠ [] := by
  rw [natToDigits]
  split <;> simp

theorem natToDigits_mem : ∀ {n : Nat} {c : Char}, c ∈ natToDigits n →
    ∃ d, d < 10 ∧ c = Char.ofNat (48 + d) := by
  intro n
  induction n using Nat.strong_induction_on with
  | _ n ih =>
    intro c h
    rw [natToDigits] at h
    split at h
    next h10 => exact ⟨n, h10, by simpa using h⟩
    next h10 =>
      rcases List.mem_append.mp h with h' | h'
      · exact ih (n / 10) (Nat.div_lt_self (by omega) (by omega)) h'
      · exact ⟨n % 10, Nat.mod_lt _ (by omega), by simpa using h'⟩

theorem natToDigits_all (n : Nat) : (natToDigits n).all Char.isDigit = true := by
  rw [List.all_eq_true]
  intro c hc
  obtain ⟨d, hd, rfl⟩ := natToDigits_mem hc
  exact (digitChar_facts d hd).1

theorem natToDigits_not_mem_dash (n : Nat) : '-' ∉ natToDigits n := by
  intro h
  obtain ⟨d, hd, hc⟩ := natToDigits_mem h
  exact (digitChar_facts d hd).2.2.2.1 hc.symm

theorem natToDigits_not_mem_comma (n : Nat) : ',' ∉ natToDigits n := by
  intro h
  obtain ⟨d, hd, hc⟩ := natToDigits_mem h
  exact (digitChar_facts d hd).2.2.2.2 hc.symm

theorem natToDigits_head_ne_plus (n : Nat) : (natToDigits n).head? ≠ some '+' := by
  cases h : natToDigits n with
  | nil => simp
  | cons c t =>
    have hc : c ∈ natToDigits n := h ▸ List.mem_cons_self c t
    obtain ⟨d, hd, rfl⟩ := natToDigits_mem hc
    simp only [List.head?, ne_eq, Option.some.injEq]
    exact (digitChar_facts d hd).2.2.1

theorem valFromDigits_append (s : List Char) (c : Char) :
    valFromDigits (s ++ [c]) = 10 * valFromDigits s + digitVal c := by
  simp [valFromDigits, List.foldl_append]

theorem valFromDigits_natToDigits : ∀ n, valFromDigits (natToDigits n) = n := by
  intro n
  induction n using Nat.strong_induction_on with
  | _ n ih =>
    rw [natToDigits]
    split
    next h10 =>
      have := (digitChar_facts n h10).2.1
      simp [valFromDigits, this]
    next h10 =>
      rw [valFromDigits_append, ih (n / 10) (Nat.div_lt_self (by omega) (by omega))]
      have := (digitChar_facts (n % 10) (Nat.mod_lt _ (by omega))).2.1
      omega

theorem natFromDigits_natToDigits {n : Nat} (h : n ≤ USIZE_MAX) :
    natFromDigits (natToDigits n) = some n := by
  unfold natFromDigits
  rw [if_neg (natToDigits_ne_nil n), if_pos (natToDigits_all n),
    valFromDigits_natToDigits, if_pos h]

theorem natFromDigits_natToDigits_none {n : Nat} (h : USIZE_MAX < n) :
    natFromDigits (natToDigits n) = none := by
  unfold natFromDigits
  rw [if_neg (natToDigits_ne_nil n), if_pos (natToDigits_all n),
    valFromDigits_natToDigits, if_neg (by omega)]

theorem natFromDigits_le : ∀ {s : List Char} {v : Nat},
    natFromDigits s = some v → v ≤ USIZE_MAX := by
  intro s v h
  unfold natFromDigits at h
  split at h
  · simp at h
  · split at h
    · split at h
      · injection h with h
        omega
      · simp at h
    · simp at h

/-! ### Lemmas about the parser -/

theorem parseEndpoint_ok {part e : List Char} {b : Nat}
    (h : parseEndpoint part e = .ok b) : 1 ≤ b ∧ b ≤ USIZE_MAX := by
  unfold parseEndpoint at h
  split at h
  · simp at h
  · split at h
    · simp at h
    · next bound heq =>
      split at h
      · simp at h
      · next hz =>
        have hb : bound = b := by simpa using h
        subst hb
        exact ⟨by omega, natFromDigits_le heq⟩

theorem parseEndpoint_natToDigits (part : List Char) {v : Nat} (h1 : 1 ≤ v)
    (h2 : v ≤ USIZE_MAX) : parseEndpoint part (natToDigits v) = .ok v := by
  unfold parseEndpoint
  rw [if_neg (natToDigits_head_ne_plus v), natFromDigits_natToDigits h2]
  dsimp only
  rw [if_neg (by omega)]

theorem parseEndpoint_zero (part : List Char) :
    parseEndpoint part ['0'] = .error (valueError ['0']) := by
  have h : natFromDigits ['0'] = some 0 := rfl
  unfold parseEndpoint
  rw [if_neg (by decide), h]
  dsimp only
  rw [if_pos rfl]

theorem parseEndpoint_overflow (part : List Char) {n : Nat} (h : USIZE_MAX < n) :
    parseEndpoint part (natToDigits n) = .error (valueError part) := by
  unfold parseEndpoint
  rw [if_neg (natToDigits_head_ne_plus n), natFromDigits_natToDigits_none h]

/-! ### Lemmas about `collectExcept` -/

theorem collectExcept_ok {α β ε : Type} {f : α → Except ε β} :
    ∀ {as : List α} {bs : List β}, collectExcept f as = .ok bs →
      bs.length = as.length ∧ ∀ b ∈ bs, ∃ a ∈ as, f a = .ok b := by
  intro as
  induction as with
  | nil =>
    intro bs h
    have : bs = [] := by simpa [collectExcept] using h.symm
    subst this
    simp
  | cons a as ih =>
    intro bs h
    simp only [collectExcept] at h
    split at h
    · simp at h
    · next b hfa =>
      cases hc : collectExcept f as with
      | error e => rw [hc] at h; simp [Except.map] at h
      | ok l =>
        rw [hc] at h
        have hbs : bs = b :: l := by simpa [Except.map] using h.symm
        subst hbs
        obtain ⟨hlen, hmem⟩ := ih hc
        refine ⟨by simp [hlen], ?_⟩
        intro x hx
        rcases List.mem_cons.mp hx with hx | hx
        · exact ⟨a, by simp, hx ▸ hfa⟩
        · obtain ⟨a', ha', hfa'⟩ := hmem x hx
          exact ⟨a', List.mem_cons_of_mem a ha', hfa'⟩

theorem collectExcept_cons_error {α β ε : Type} {f : α → Except ε β} {a : α}
    (as : List α) {e : ε} (h : f a = .error e) :
    collectExcept f (a :: as) = .error e := by
  simp [collectExcept, h]

/-! ### The loop of `parse_pos` versus ordered collection -/

theorem parseLoop_eq (range : List Char) :
    ∀ (ps : List (List Char)) (acc : List (Nat × Nat)),
      parseLoop range ps acc = (collectExcept (parsePart range) ps).map (acc ++ ·)
  | [], acc => by simp [parseLoop, collectExcept, Except.map]
  | p :: ps, acc => by
    simp only [parseLoop, collectExcept]
    cases h : parsePart range p with
    | error e => simp [Except.map]
    | ok r =>
      dsimp only
      rw [parseLoop_eq range ps (acc ++ [r])]
      cases hc : collectExcept (parsePart range) ps <;> simp [Except.map]

theorem parse_pos_eq {s : List Char} (h : s ≠ []) :
    parse_pos s = collectExcept (parsePart s) (splitOnChar ',' s) := by
  unfold parse_pos
  rw [if_neg h, parseLoop_eq]
  cases hc : collectExcept (parsePart s) (splitOnChar ',' s) <;> simp [Except.map]

theorem parsePart_ok {range part : List Char} {r : Nat × Nat}
    (h : parsePart range part = .ok r) : r.1 < r.2 ∧ r.2 ≤ USIZE_MAX := by
  unfold parsePart at h
  split at h
  · simp at h
  · dsimp only at h
    split at h
    · simp at h
    · split at h
      · simp at h
      · next bounds heq =>
        obtain ⟨-, hmem⟩ := collectExcept_ok heq
        split at h
        · next lower =>
          have hr : (lower - 1, lower) = r := by simpa using h
          obtain ⟨a1, ha1, hok⟩ := hmem lower (by simp)
          have := parseEndpoint_ok hok
          subst hr
          exact ⟨by omega, by omega⟩
        · next lower upper =>
          split at h
          · simp at h
          · split at h
            · simp at h
            · next hge =>
              have hr : (lower - 1, upper) = r := by simpa using h
              obtain ⟨a1, ha1, hokl⟩ := hmem lower (by simp)
              obtain ⟨a2, ha2, hoku⟩ := hmem upper (by simp)
              have hl := parseEndpoint_ok hokl
              have hu := parseEndpoint_ok hoku
              subst hr
              exact ⟨by omega, by omega⟩
        · simp at h

theorem parse_pos_inv {s : List Char} {l : List (Nat × Nat)}
    (h : parse_pos s = .ok l) :
    s ≠ [] ∧ (∀ r ∈ l, r.1 < r.2 ∧ r.2 ≤ USIZE_MAX) ∧
      l.length = (splitOnChar ',' s).length := by
  have hne : s ≠ [] := by
    intro he
    subst he
    simp [parse_pos] at h
  rw [parse_pos_eq hne] at h
  obtain ⟨hlen, hmem⟩ := collectExcept_ok h
  refine ⟨hne, fun r hr => ?_, hlen⟩
  obtain ⟨p, hp, hok⟩ := hmem r hr
  exact parsePart_ok hok

/-! ### Lemmas about serialization and re-parsing -/

theorem serializeRange_ne_nil (r : Nat × Nat) : serializeRange r ≠ [] := by
  unfold serializeRange
  split
  · exact natToDigits_ne_nil _
  · intro h
    exact natToDigits_ne_nil (r.1 + 1) (List.append_eq_nil.mp h).1

theorem serializeRange_not_mem_comma (r : Nat × Nat) : ',' ∉ serializeRange r := by
  unfold serializeRange
  split
  · exact natToDigits_not_mem_comma _
  · intro h
    rcases List.mem_append.mp h with h' | h'
    · exact natToDigits_not_mem_comma _ h'
    · rcases List.mem_cons.mp h' with h'' | h''
      · exact absurd h'' (by decide)
      · exact natToDigits_not_mem_comma _ h''

theorem serializeRange_parsePart (range : List Char) {r : Nat × Nat}
    (h1 : r.1 < r.2) (h2 : r.2 ≤ USIZE_MAX) :
    parsePart range (serializeRange r) = .ok r := by
  unfold serializeRange
  by_cases hw : r.2 = r.1 + 1
  · rw [if_pos hw]
    unfold parsePart
    rw [if_neg (natToDigits_ne_nil _)]
    simp only [splitOnChar_of_not_mem (natToDigits_not_mem_dash (r.1 + 1))]
    rw [if_neg (by simp)]
    rw [collectExcept, collectExcept,
      parseEndpoint_natToDigits _ (by omega) (by omega)]
    dsimp only [Except.map]
    have : r.1 + 1 - 1 = r.1 := by omega
    rw [this, ← hw]
  · rw [if_neg hw]
    unfold parsePart
    rw [if_neg (fun h => natToDigits_ne_nil (r.1 + 1) (List.append_eq_nil.mp h).1)]
    simp only [splitOnChar_append (natToDigits_not_mem_dash (r.1 + 1)),
      splitOnChar_of_not_mem (natToDigits_not_mem_dash r.2)]
    rw [if_neg (by simp)]
    rw [collectExcept, parseEndpoint_natToDigits _ (by omega) (by omega),
      collectExcept, collectExcept,
      parseEndpoint_natToDigits _ (by omega) h2]
    dsimp only [Except.map]
    rw [if_neg (by omega), if_neg (by omega)]
    have : r.1 + 1 - 1 = r.1 := by omega
    rw [this]

theorem collect_serializeRange (range : List Char) :
    ∀ l : List (Nat × Nat), (∀ r ∈ l, r.1 < r.2 ∧ r.2 ≤ USIZE_MAX) →
      collectExcept (parsePart range) (l.map serializeRange) = .ok l
  | [], _ => rfl
  | r :: l, h => by
    rw [List.map_cons, collectExcept,
      serializeRange_parsePart range (h r (by simp)).1 (h r (by simp)).2,
      collect_serializeRange range l (fun x hx => h x (List.mem_cons_of_mem r hx))]
    rfl

theorem serializePositions_ne_nil {l : List (Nat × Nat)} (h : l ≠ []) :
    serializePositions l ≠ [] := by
  cases l with
  | nil => exact absurd rfl h
  | cons r l =>
    obtain ⟨t, ht⟩ := intercalateChar_cons ',' (serializeRange r) (l.map serializeRange)
    unfold serializePositions
    rw [List.map_cons, ht]
    intro he
    exact serializeRange_ne_nil r (List.append_eq_nil.mp he).1

theorem parse_serializePositions {l : List (Nat × Nat)} (hne : l ≠ [])
    (hinv : ∀ r ∈ l, r.1 < r.2 ∧ r.2 ≤ USIZE_MAX) :
    parse_pos (serializePositions l) = .ok l := by
  rw [parse_pos_eq (serializePositions_ne_nil hne)]
  unfold serializePositions
  rw [splitOnChar_intercalateChar (l.map serializeRange) (by simpa using hne)
    (fun p hp => by
      obtain ⟨r, -, rfl⟩ := List.mem_map.mp hp
      exact serializeRange_not_mem_comma r)]
  exact collect_serializeRange _ l hinv

/-! ### Lemmas about extraction -/

/-- Clamping a range to the bounds of an input of `n` units. -/
def clampRange (n : Nat) (r : Nat × Nat) : Nat × Nat := (min r.1 n, min r.2 n)

theorem filterMap_countFrom_clamp {α : Type} (l : List α) (s e : Nat) :
    (countFrom s (e - s)).filterMap l.get? =
      (countFrom (min s l.length) (min e l.length - min s l.length)).filterMap
        l.get? := by
  by_cases hs : l.length ≤ s
  · rw [countFrom_oob l _ s hs, Nat.min_eq_right hs,
      countFrom_oob l _ l.length (le_refl _)]
  · push_neg at hs
    rw [Nat.min_eq_left (Nat.le_of_lt hs)]
    by_cases he : e ≤ l.length
    · rw [Nat.min_eq_left he]
    · push_neg at he
      rw [Nat.min_eq_right (Nat.le_of_lt he)]
      have h1 : e - s = (l.length - s) + (e - l.length) := by omega
      rw [h1, countFrom_add, List.filterMap_append]
      have h2 : s + (l.length - s) = l.length := by omega
      rw [h2, countFrom_oob l _ l.length (le_refl _), List.append_nil]

theorem selection_clamp {α : Type} (l : List α) (ps : List (Nat × Nat)) :
    (ps.map fun r => (rangeIndices r).filterMap fun i => l.get? i) =
      (ps.map (clampRange l.length)).map
        fun r => (rangeIndices r).filterMap fun i => l.get? i := by
  rw [List.map_map]
  apply List.map_congr_left
  intro r _
  exact filterMap_countFrom_clamp l r.1 r.2

theorem extract_chars_clamp (line : List Char) (ps : List (Nat × Nat)) :
    extract_chars line ps = extract_chars line (ps.map (clampRange line.length)) := by
  unfold extract_chars
  rw [selection_clamp]

theorem extract_bytes_clamp (line : List Char) (ps : List (Nat × Nat)) :
    extract_bytes line ps =
      extract_bytes line (ps.map (clampRange (strBytes line).length)) := by
  unfold extract_bytes
  dsimp only
  rw [selection_clamp]

theorem extract_fields_clamp (record : List (List Char)) (ps : List (Nat × Nat)) :
    extract_fields record ps =
      extract_fields record (ps.map (clampRange record.length)) := by
  unfold extract_fields
  rw [selection_clamp]

theorem extract_chars_append (line : List Char) (ps qs : List (Nat × Nat)) :
    extract_chars line (ps ++ qs) = extract_chars line ps ++ extract_chars line qs := by
  unfold extract_chars
  rw [List.map_append, List.flatten_append]

/-! ### Lemmas about lossy UTF-8 decoding -/

theorem utf8Encode_two {c : Char} (h1 : 0x80 ≤ c.toNat) (h2 : c.toNat < 0x800) :
    utf8Encode c = [0xC0 + c.toNat / 64, 0x80 + c.toNat % 64] := by
  unfold utf8Encode
  rw [if_neg (by omega), if_pos h2]

theorem utf8LossyAux_nil : ∀ fuel, utf8LossyAux fuel [] = []
  | 0 => rfl
  | _ + 1 => rfl

theorem utf8LossyAux_one_lead {fuel b : Nat} (h1 : 0xC2 ≤ b) (h2 : b ≤ 0xDF) :
    utf8LossyAux (fuel + 1) [b] = [repChar] := by
  unfold utf8LossyAux
  dsimp only
  rw [if_neg (by omega), if_pos ⟨h1, h2⟩]

theorem utf8LossyAux_one_cont {fuel b : Nat} (h1 : 0x80 ≤ b) (h2 : b ≤ 0xBF) :
    utf8LossyAux (fuel + 1) [b] = [repChar] := by
  unfold utf8LossyAux
  dsimp only
  rw [if_neg (by omega), if_neg (by omega), if_neg (by omega), if_neg (by omega),
    utf8LossyAux_nil]

theorem utf8Lossy_single_lead {b : Nat} (h1 : 0xC2 ≤ b) (h2 : b ≤ 0xDF) :
    utf8Lossy [b] = [repChar] :=
  utf8LossyAux_one_lead h1 h2

theorem utf8Lossy_single_cont {b : Nat} (h1 : 0x80 ≤ b) (h2 : b ≤ 0xBF) :
    utf8Lossy [b] = [repChar] :=
  utf8LossyAux_one_cont h1 h2

/-! ### The claims -/

/-- C2: for every spec string on which `parse_pos` succeeds, every range in
the returned position list satisfies `start >= 0` and `start < end`, and
the number of ranges equals the number of comma-separated parts of the
spec. -/
theorem claim_C2 (s : List Char) (l : List (Nat × Nat))
    (h : parse_pos s = .ok l) :
    (∀ r ∈ l, 0 ≤ r.1 ∧ r.1 < r.2) ∧ l.length = (splitOnChar ',' s).length := by
  obtain ⟨-, hinv, hlen⟩ := parse_pos_inv h
  exact ⟨fun r hr => ⟨Nat.zero_le _, (hinv r hr).1⟩, hlen⟩

theorem claim_C2_witness :
    (∀ r ∈ [((0 : Nat), (1 : Nat)), (2, 3)], 0 ≤ r.1 ∧ r.1 < r.2) ∧
      [((0 : Nat), (1 : Nat)), (2, 3)].length =
        (splitOnChar ',' "1,3".toList).length :=
  claim_C2 "1,3".toList [(0, 1), (2, 3)] rfl

/-- C3: none of the three extraction operations can fail; every index
outside the input's bounds is silently skipped and contributes nothing,
so extraction is unchanged when every range is clamped to the input's
length; in particular `extract_chars "" [(0, 1)]` is the empty string. -/
theorem claim_C3 :
    (∀ (line : List Char) (ps : List (Nat × Nat)),
      extract_chars line ps = extract_chars line (ps.map (clampRange line.length))) ∧
    (∀ (line : List Char) (ps : List (Nat × Nat)),
      extract_bytes line ps =
        extract_bytes line (ps.map (clampRange (strBytes line).length))) ∧
    (∀ (record : List (List Char)) (ps : List (Nat × Nat)),
      extract_fields record ps =
        extract_fields record (ps.map (clampRange record.length))) ∧
    extract_chars [] [(0, 1)] = [] :=
  ⟨extract_chars_clamp, extract_bytes_clamp, extract_fields_clamp, rfl⟩

/-- C4: `parse_pos` appends one range per comma-separated part, in the
order the parts appear, with no merging, sorting or deduplication: it is
the ordered collection of `parsePart` over the split parts; in
particular `parse_pos "1,7,3-5" = [[0,1), [6,7), [2,5)]`. -/
theorem claim_C4 :
    parse_pos "1,7,3-5".toList = .ok [(0, 1), (6, 7), (2, 5)] ∧
      ∀ s : List Char, s ≠ [] →
        parse_pos s = collectExcept (parsePart s) (splitOnChar ',' s) :=
  ⟨rfl, fun _ h => parse_pos_eq h⟩

theorem claim_C4_witness :
    parse_pos "2".toList = collectExcept (parsePart "2".toList)
      (splitOnChar ',' "2".toList) :=
  claim_C4.2 "2".toList (by decide)

/-- C7: for non-overlapping ranges `r1` positionally before `r2`,
swapping the order of selection swaps the order of the two extracted
pieces: selection order, not position order, determines output order. -/
theorem claim_C7 (line : List Char) (r1 r2 : Nat × Nat) (hsep : r1.2 ≤ r2.1) :
    extract_chars line [r1, r2] = extract_chars line [r1] ++ extract_chars line [r2] ∧
      extract_chars line [r2, r1] =
        extract_chars line [r2] ++ extract_chars line [r1] :=
  ⟨by simpa using extract_chars_append line [r1] [r2],
    by simpa using extract_chars_append line [r2] [r1]⟩

theorem claim_C7_witness :
    extract_chars "abc".toList [((1 : Nat), (2 : Nat)), (2, 3)] =
        extract_chars "abc".toList [(1, 2)] ++ extract_chars "abc".toList [(2, 3)] ∧
      extract_chars "abc".toList [((2 : Nat), (3 : Nat)), (1, 2)] =
        extract_chars "abc".toList [(2, 3)] ++ extract_chars "abc".toList [(1, 2)] :=
  claim_C7 "abc".toList (1, 2) (2, 3) (by decide)

/-- C8: for every spec on which `parse_pos` succeeds, serializing the
resulting position list back to 1-based notation and re-parsing yields
the same position list, preserving order and bounds. -/
theorem claim_C8 (s : List Char) (l : List (Nat × Nat))
    (h : parse_pos s = .ok l) : parse_pos (serializePositions l) = .ok l := by
  obtain ⟨-, hinv, hlen⟩ := parse_pos_inv h
  have hne : l ≠ [] := by
    intro he
    subst he
    exact splitOnChar_ne_nil ',' s (List.length_eq_zero.mp hlen.symm)
  exact parse_serializePositions hne hinv

theorem claim_C8_witness :
    parse_pos (serializePositions [(0, 1), (6, 7), (2, 5)]) =
      .ok [(0, 1), (6, 7), (2, 5)] :=
  claim_C8 "1,7,3-5".toList [(0, 1), (6, 7), (2, 5)] rfl

theorem collectExcept_cons_ok {α β ε : Type} {f : α → Except ε β} {a : α}
    (as : List α) {b : β} (h : f a = .ok b) :
    collectExcept f (a :: as) = (collectExcept f as).map (b :: ·) := by
  simp [collectExcept, h]

theorem parsePart_too_many {range part : List Char} (h2 : part ≠ [])
    (h3 : 2 < (splitOnChar '-' part).length) :
    parsePart range part = .error (valueError range) := by
  unfold parsePart
  rw [if_neg h2]
  dsimp only
  rw [if_pos h3]

/-- C1 (amended): a selection string whose first comma-part splits on `-`
into more than two segments fails with an illegal-value error whose
message embeds the whole selection string. -/
theorem claim_C1 (part rest : List Char) (h1 : ',' ∉ part) (h2 : part ≠ [])
    (h3 : 2 < (splitOnChar '-' part).length) :
    parse_pos part = .error (valueError part) ∧
      parse_pos (part ++ ',' :: rest) =
        .error (valueError (part ++ ',' :: rest)) := by
  constructor
  · rw [parse_pos_eq h2, splitOnChar_of_not_mem h1,
      collectExcept_cons_error [] (parsePart_too_many h2 h3)]
  · have hne : part ++ ',' :: rest ≠ [] := by
      intro he
      exact h2 (List.append_eq_nil.mp he).1
    rw [parse_pos_eq hne, splitOnChar_append h1,
      collectExcept_cons_error _ (parsePart_too_many h2 h3)]

theorem claim_C1_witness :
    parse_pos "1-1-1".toList = .error (valueError "1-1-1".toList) ∧
      parse_pos ("1-1-1".toList ++ ',' :: "2".toList) =
        .error (valueError ("1-1-1".toList ++ ',' :: "2".toList)) :=
  claim_C1 "1-1-1".toList "2".toList (by decide) (by decide) (by decide)

/-- C1 counterexample: on the claim's own example `"2,1-1-1"`, the error
message embeds the whole selection string, not the offending part
`"1-1-1"` alone. -/
theorem claim_C1_counterexample :
    parse_pos "2,1-1-1".toList = .error "illegal list value: \"2,1-1-1\"".toList ∧
      parse_pos "2,1-1-1".toList ≠
        .error "illegal list value: \"1-1-1\"".toList := by
  constructor
  · rfl
  · intro h
    have h1 : (Except.error "illegal list value: \"2,1-1-1\"".toList :
        Except (List Char) (List (Nat × Nat))) =
        .error "illegal list value: \"1-1-1\"".toList := by
      rw [← h]
      rfl
    exact absurd (Except.error.inj h1) (by decide)

/-- C5 counterexample: `"a,0"` contains an endpoint equal to 0, yet
fails with `illegal list value: "a"` because the earlier part fails
first. -/
theorem claim_C5_counterexample :
    parse_pos "a,0".toList = .error "illegal list value: \"a\"".toList ∧
      parse_pos "a,0".toList ≠ .error "illegal list value: \"0\"".toList := by
  constructor
  · rfl
  · intro h
    have h1 : (Except.error "illegal list value: \"a\"".toList :
        Except (List Char) (List (Nat × Nat))) =
        .error "illegal list value: \"0\"".toList := by
      rw [← h]
      rfl
    exact absurd (Except.error.inj h1) (by decide)

theorem parsePart_two (range : List Char) {L U : Nat} (hL : 1 ≤ L) (hU : 1 ≤ U)
    (hLM : L ≤ USIZE_MAX) (hUM : U ≤ USIZE_MAX) :
    parsePart range (natToDigits L ++ '-' :: natToDigits U) =
      if U ≤ L then .error (invertedError L U) else .ok (L - 1, U) := by
  unfold parsePart
  rw [if_neg (fun he => natToDigits_ne_nil L (List.append_eq_nil.mp he).1)]
  dsimp only
  rw [splitOnChar_append (natToDigits_not_mem_dash L),
    splitOnChar_of_not_mem (natToDigits_not_mem_dash U), if_neg (by simp),
    collectExcept_cons_ok _ (parseEndpoint_natToDigits _ hL hLM),
    collectExcept_cons_ok _ (parseEndpoint_natToDigits _ hU hUM)]
  dsimp only [collectExcept, Except.map]
  rw [if_neg (show ¬U = 0 by omega)]

/-- C6: a two-endpoint part `"L-U"` (with endpoints that parse as valid
positive `usize` values) fails with the range-inversion message
embedding both 1-based numbers when `L >= U`, and becomes the half-open
range `[L-1, U)` when `L < U`; the message for `"1-1"` is exactly
`First number in range (1) must be lower than second number (1)`. -/
theorem claim_C6 :
    (∀ L U : Nat, 1 ≤ L → 1 ≤ U → L ≤ USIZE_MAX → U ≤ USIZE_MAX →
      parse_pos (natToDigits L ++ '-' :: natToDigits U) =
        if U ≤ L then .error (invertedError L U) else .ok [(L - 1, U)]) ∧
      invertedError 1 1 =
        "First number in range (1) must be lower than second number (1)".toList := by
  constructor
  · intro L U hL hU hLM hUM
    have hne : natToDigits L ++ '-' :: natToDigits U ≠ [] := by
      intro he
      exact natToDigits_ne_nil L (List.append_eq_nil.mp he).1
    have hnc : ',' ∉ natToDigits L ++ '-' :: natToDigits U := by
      intro hm
      rcases List.mem_append.mp hm with hm | hm
      · exact natToDigits_not_mem_comma L hm
      · rcases List.mem_cons.mp hm with hm | hm
        · exact absurd hm (by decide)
        · exact natToDigits_not_mem_comma U hm
    rw [parse_pos_eq hne, splitOnChar_of_not_mem hnc]
    by_cases hge : U ≤ L
    · rw [if_pos hge]
      rw [collectExcept_cons_error []
        (by rw [parsePart_two _ hL hU hLM hUM, if_pos hge])]
    · rw [if_neg hge]
      rw [collectExcept_cons_ok []
        (by rw [parsePart_two _ hL hU hLM hUM, if_neg hge])]
      rfl
  · unfold invertedError
    rw [natToDigits]
    decide

theorem claim_C6_witness :
    parse_pos (natToDigits 1 ++ '-' :: natToDigits 1) =
        .error (invertedError 1 1) ∧
      parse_pos (natToDigits 1 ++ '-' :: natToDigits 3) = .ok [(0, 3)] := by
  constructor
  · have h := claim_C6.1 1 1 (by omega) (by omega) (by decide) (by decide)
    rwa [if_pos (by omega)] at h
  · have h := claim_C6.1 1 3 (by omega) (by omega) (by decide) (by decide)
    rwa [if_neg (by omega)] at h

/-- C9: `extract_bytes` selects raw bytes by index and decodes lossily,
never failing: a range that keeps only one half of a two-byte encoded
character (either the leading byte or the continuation byte) produces
exactly one replacement marker character. -/
theorem claim_C9 (c : Char) (h1 : 0x80 ≤ c.toNat) (h2 : c.toNat < 0x800) :
    extract_bytes [c] [(0, 1)] = [repChar] ∧
      extract_bytes [c] [(1, 2)] = [repChar] := by
  have hb : strBytes [c] = [0xC0 + c.toNat / 64, 0x80 + c.toNat % 64] := by
    simp [strBytes, utf8Encode_two h1 h2]
  constructor
  · unfold extract_bytes
    dsimp only
    rw [hb]
    have hsel : (([((0 : Nat), (1 : Nat))]).map fun r =>
        (rangeIndices r).filterMap fun i =>
          ([0xC0 + c.toNat / 64, 0x80 + c.toNat % 64] : List Nat).get? i).flatten =
        [0xC0 + c.toNat / 64] := by
      simp [rangeIndices, countFrom]
    rw [hsel]
    exact utf8Lossy_single_lead (by omega) (by omega)
  · unfold extract_bytes
    dsimp only
    rw [hb]
    have hsel : (([((1 : Nat), (2 : Nat))]).map fun r =>
        (rangeIndices r).filterMap fun i =>
          ([0xC0 + c.toNat / 64, 0x80 + c.toNat % 64] : List Nat).get? i).flatten =
        [0x80 + c.toNat % 64] := by
      simp [rangeIndices, countFrom]
    rw [hsel]
    exact utf8Lossy_single_cont (by omega) (by omega)

theorem claim_C9_witness :
    extract_bytes [Char.ofNat 233] [(0, 1)] = [repChar] ∧
      extract_bytes [Char.ofNat 233] [(1, 2)] = [repChar] :=
  claim_C9 (Char.ofNat 233) (by decide) (by decide)


/-! ### First-error propagation through a whole spec -/

theorem natFromDigits_some {e : List Char} {v : Nat}
    (h : natFromDigits e = some v) :
    e ≠ [] ∧ e.all Char.isDigit = true ∧ v = valFromDigits e ∧
      valFromDigits e ≤ USIZE_MAX := by
  unfold natFromDigits at h
  split at h
  · simp at h
  · next hne =>
    split at h
    · next hall =>
      split at h
      · next hle => exact ⟨hne, hall, by simpa using h.symm, hle⟩
      · simp at h
    · simp at h

theorem all_digit_head_ne_plus {s : List Char} (h1 : s ≠ [])
    (h2 : s.all Char.isDigit = true) : s.head? ≠ some '+' := by
  cases s with
  | nil => exact absurd rfl h1
  | cons c t =>
    simp only [List.head?, ne_eq, Option.some.injEq]
    intro hc
    subst hc
    have := List.all_eq_true.mp h2 '+' (List.mem_cons_self '+' t)
    exact absurd this (by decide)

theorem parseEndpoint_of_zero {part e : List Char} (h : zeroEndpoint e) :
    parseEndpoint part e = .error (valueError ['0']) := by
  have h' : natFromDigits e = some 0 := h
  obtain ⟨hne, hdig, -, -⟩ := natFromDigits_some h'
  unfold parseEndpoint
  rw [if_neg (all_digit_head_ne_plus hne hdig), h']
  dsimp only
  rw [if_pos rfl]

theorem parseEndpoint_of_overflow {part e : List Char} (h : overflowEndpoint e) :
    parseEndpoint part e = .error (valueError part) := by
  obtain ⟨hne, hdig, hbig⟩ := h
  have hnone : natFromDigits e = none := by
    unfold natFromDigits
    rw [if_neg hne, if_pos hdig, if_neg (by omega)]
  unfold parseEndpoint
  rw [if_neg (all_digit_head_ne_plus hne hdig), hnone]

theorem parsePart_of_endpointHitsFirst {P : List Char → Prop} {part : List Char}
    {emsg : List Char} (h : endpointHitsFirst P part)
    (hP : ∀ e, P e → parseEndpoint part e = .error emsg) (range : List Char) :
    parsePart range part = .error emsg := by
  obtain ⟨hne, hm⟩ := h
  unfold parsePart
  rw [if_neg hne]
  dsimp only
  cases hsp : splitOnChar '-' part with
  | nil =>
    rw [hsp] at hm
    exact False.elim hm
  | cons e1 t =>
    cases t with
    | nil =>
      rw [hsp] at hm
      have hm' : P e1 := hm
      rw [if_neg (by simp), collectExcept_cons_error [] (hP e1 hm')]
    | cons e2 t2 =>
      cases t2 with
      | nil =>
        rw [hsp] at hm
        have hm' : P e1 ∨ ((∃ v, parseEndpoint part e1 = .ok v) ∧ P e2) := hm
        rw [if_neg (by simp)]
        rcases hm' with hm' | ⟨⟨v, hv⟩, hm'⟩
        · rw [collectExcept_cons_error [e2] (hP e1 hm')]
        · rw [collectExcept_cons_ok _ hv,
            collectExcept_cons_error [] (hP e2 hm')]
          rfl
      | cons e3 t3 =>
        rw [hsp] at hm
        exact False.elim hm

theorem parsePart_of_zeroHitsFirst {part : List Char} (h : zeroHitsFirst part)
    (range : List Char) : parsePart range part = .error (valueError ['0']) :=
  parsePart_of_endpointHitsFirst h (fun _ he => parseEndpoint_of_zero he) range

theorem parsePart_of_overflowHitsFirst {part : List Char}
    (h : overflowHitsFirst part) (range : List Char) :
    parsePart range part = .error (valueError part) :=
  parsePart_of_endpointHitsFirst h (fun _ he => parseEndpoint_of_overflow he) range

theorem parsePart_ok_irrel {r1 r2 p : List Char} {v : Nat × Nat}
    (h : parsePart r1 p = .ok v) : parsePart r2 p = .ok v := by
  unfold parsePart at h ⊢
  by_cases hne : p = []
  · rw [if_pos hne] at h
    exact Except.noConfusion h
  · rw [if_neg hne] at h ⊢
    dsimp only at h ⊢
    by_cases hlen : (splitOnChar '-' p).length > 2
    · rw [if_pos hlen] at h
      exact Except.noConfusion h
    · rw [if_neg hlen] at h ⊢
      cases hc : collectExcept (parseEndpoint p) (splitOnChar '-' p) with
      | error e =>
        rw [hc] at h
        exact Except.noConfusion h
      | ok bounds =>
        rw [hc] at h
        match bounds with
        | [] => exact Except.noConfusion h
        | [lower] => exact h
        | [lower, upper] => exact h
        | l1 :: l2 :: l3 :: t => exact Except.noConfusion h

theorem collectExcept_append_error {α β ε : Type} {f : α → Except ε β} {a0 : α}
    {e : ε} : ∀ (as : List α), (∀ a ∈ as, ∃ b, f a = .ok b) →
      f a0 = .error e → ∀ post, collectExcept f (as ++ a0 :: post) = .error e
  | [], _, h0, post => by
    rw [List.nil_append]
    exact collectExcept_cons_error post h0
  | a :: as, hok, h0, post => by
    obtain ⟨b, hb⟩ := hok a (by simp)
    rw [List.cons_append, collectExcept_cons_ok _ hb,
      collectExcept_append_error as (fun x hx => hok x (List.mem_cons_of_mem a hx))
        h0 post]
    rfl

theorem splitOnChar_intercalate_append {c : Char} :
    ∀ (ps : List (List Char)) (b : List Char), ps ≠ [] → (∀ p ∈ ps, c ∉ p) →
      splitOnChar c (intercalateChar c ps ++ c :: b) = ps ++ splitOnChar c b
  | [], _, h, _ => absurd rfl h
  | [p], b, _, hp => by
    simp only [intercalateChar]
    rw [splitOnChar_append (hp p (by simp))]
    rfl
  | p :: q :: ps, b, _, hp => by
    simp only [intercalateChar]
    rw [List.append_assoc, List.cons_append, splitOnChar_append (hp p (by simp)),
      splitOnChar_intercalate_append (q :: ps) b (by simp)
        (fun x hx => hp x (List.mem_cons_of_mem p hx))]
    rfl

theorem parse_pos_first_error {pre : List (List Char)} {part : List Char}
    (hcpre : ∀ p ∈ pre, ',' ∉ p) (hcp : ',' ∉ part) (hpne : part ≠ [])
    (hok : ∀ p ∈ pre, ∃ r, parsePart p p = .ok r) {emsg : List Char}
    (herr : ∀ range, parsePart range part = .error emsg) (rest : List Char) :
    parse_pos (intercalateChar ',' (pre ++ [part])) = .error emsg ∧
      parse_pos (intercalateChar ',' (pre ++ [part]) ++ ',' :: rest) =
        .error emsg := by
  have hparts_ne : pre ++ [part] ≠ [] := by simp
  have hcall : ∀ p ∈ pre ++ [part], ',' ∉ p := by
    intro p hp
    rcases List.mem_append.mp hp with hp | hp
    · exact hcpre p hp
    · rw [List.mem_singleton] at hp
      subst hp
      exact hcp
  have hall_ne : ∀ p ∈ pre ++ [part], p ≠ [] := by
    intro p hp he
    subst he
    rcases List.mem_append.mp hp with hp | hp
    · obtain ⟨r, hr⟩ := hok [] hp
      have hcomp : parsePart ([] : List Char) ([] : List Char) =
          .error (valueError []) := rfl
      rw [hcomp] at hr
      exact Except.noConfusion hr
    · rw [List.mem_singleton] at hp
      exact hpne hp.symm
  have hok' : ∀ p ∈ pre, ∃ b, parsePart (intercalateChar ',' (pre ++ [part])) p =
      .ok b := fun p hp => (hok p hp).imp fun _ hr => parsePart_ok_irrel hr
  have hok'' : ∀ p ∈ pre,
      ∃ b, parsePart (intercalateChar ',' (pre ++ [part]) ++ ',' :: rest) p =
        .ok b := fun p hp => (hok p hp).imp fun _ hr => parsePart_ok_irrel hr
  have hspec1_ne : intercalateChar ',' (pre ++ [part]) ≠ [] := by
    cases hpp : pre ++ [part] with
    | nil => exact absurd hpp hparts_ne
    | cons q t =>
      obtain ⟨tt, htt⟩ := intercalateChar_cons ',' q t
      rw [htt]
      intro he
      exact hall_ne q (by rw [hpp]; exact List.mem_cons_self q t)
        (List.append_eq_nil.mp he).1
  constructor
  · rw [parse_pos_eq hspec1_ne,
      splitOnChar_intercalateChar (pre ++ [part]) hparts_ne hcall]
    exact collectExcept_append_error pre hok' (herr _) []
  · have hs2ne : intercalateChar ',' (pre ++ [part]) ++ ',' :: rest ≠ [] := by
      intro he
      exact List.cons_ne_nil ',' rest (List.append_eq_nil.mp he).2
    rw [parse_pos_eq hs2ne,
      splitOnChar_intercalate_append (pre ++ [part]) rest hparts_ne hcall,
      List.append_assoc, List.singleton_append]
    exact collectExcept_append_error pre hok'' (herr _) (splitOnChar ',' rest)

theorem collectExcept_ok_forall {α β ε : Type} {f : α → Except ε β} :
    ∀ {as : List α} {bs : List β}, collectExcept f as = .ok bs →
      ∀ a ∈ as, ∃ b, f a = .ok b := by
  intro as
  induction as with
  | nil =>
    intro bs h a ha
    exact absurd ha (List.not_mem_nil a)
  | cons a0 as ih =>
    intro bs h a ha
    simp only [collectExcept] at h
    split at h
    · simp at h
    · next b hfa =>
      rcases List.mem_cons.mp ha with rfl | ha'
      · exact ⟨b, hfa⟩
      · cases hc : collectExcept f as with
        | error e =>
          rw [hc] at h
          simp [Except.map] at h
        | ok l => exact ih hc a ha'

theorem parsePart_ok_segments {range part : List Char} {r : Nat × Nat}
    (h : parsePart range part = .ok r) :
    ∀ seg ∈ splitOnChar '-' part, ∃ v, parseEndpoint part seg = .ok v := by
  unfold parsePart at h
  split at h
  · simp at h
  · dsimp only at h
    split at h
    · simp at h
    · split at h
      · simp at h
      · next bounds heq => exact collectExcept_ok_forall heq

theorem parseEndpoint_ok_natFromDigits {part e : List Char} {v : Nat}
    (h : parseEndpoint part e = .ok v) : natFromDigits e = some v := by
  unfold parseEndpoint at h
  split at h
  · simp at h
  · split at h
    · simp at h
    · next bound heq =>
      split at h
      · simp at h
      · have hb : bound = v := by simpa using h
        subst hb
        exact heq

/-- C5 (amended): any spec whose zero endpoint is the first error the
left-to-right parse encounters — every part before it parses
successfully, and within the failing part any earlier endpoint is valid
— fails with the canonical message `illegal list value: "0"`, wherever
the failing part sits in the spec and whatever follows it; concretely
`"0"` and `"0-1"`. -/
theorem claim_C5 :
    parse_pos "0".toList = .error "illegal list value: \"0\"".toList ∧
      parse_pos "0-1".toList = .error "illegal list value: \"0\"".toList ∧
      ∀ (pre : List (List Char)) (part rest : List Char),
        (∀ p ∈ pre, ',' ∉ p) → ',' ∉ part →
        (∀ p ∈ pre, ∃ r, parsePart p p = .ok r) →
        zeroHitsFirst part →
        parse_pos (intercalateChar ',' (pre ++ [part])) =
            .error (valueError ['0']) ∧
          parse_pos (intercalateChar ',' (pre ++ [part]) ++ ',' :: rest) =
            .error (valueError ['0']) := by
  refine ⟨rfl, rfl, ?_⟩
  intro pre part rest hcpre hcp hok hz
  exact parse_pos_first_error hcpre hcp hz.1 hok
    (parsePart_of_zeroHitsFirst hz) rest

theorem claim_C5_witness :
    parse_pos "1,0".toList = .error (valueError ['0']) ∧
      parse_pos "1,0,5".toList = .error (valueError ['0']) :=
  claim_C5.2.2 [['1']] ['0'] ['5'] (by decide) (by decide)
    (fun p hp => by
      rw [List.mem_singleton] at hp
      subst hp
      exact ⟨(0, 1), rfl⟩)
    ⟨by decide, (rfl : natFromDigits ['0'] = some 0)⟩

/-- C10: a spec whose first parse error is an endpoint whose decimal
value exceeds `usize::MAX` is rejected with the illegal-value error
naming the offending part, wherever the part sits in the spec; and
endpoint arithmetic never wraps around: on every successful parse,
every dash-segment of every comma-part has decimal value at most
`usize::MAX`, so no over-large endpoint silently yields a valid
range. -/
theorem claim_C10 :
    (∀ (pre : List (List Char)) (part rest : List Char),
      (∀ p ∈ pre, ',' ∉ p) → ',' ∉ part →
      (∀ p ∈ pre, ∃ r, parsePart p p = .ok r) →
      overflowHitsFirst part →
      parse_pos (intercalateChar ',' (pre ++ [part])) =
          .error (valueError part) ∧
        parse_pos (intercalateChar ',' (pre ++ [part]) ++ ',' :: rest) =
          .error (valueError part)) ∧
    ∀ (s : List Char) (l : List (Nat × Nat)), parse_pos s = .ok l →
      ∀ part ∈ splitOnChar ',' s, ∀ seg ∈ splitOnChar '-' part,
        valFromDigits seg ≤ USIZE_MAX := by
  constructor
  · intro pre part rest hcpre hcp hok ho
    exact parse_pos_first_error hcpre hcp ho.1 hok
      (parsePart_of_overflowHitsFirst ho) rest
  · intro s l h part hpart seg hseg
    obtain ⟨hne, -, -⟩ := parse_pos_inv h
    rw [parse_pos_eq hne] at h
    obtain ⟨r, hr⟩ := collectExcept_ok_forall h part hpart
    obtain ⟨v, hv⟩ := parsePart_ok_segments hr seg hseg
    exact (natFromDigits_some (parseEndpoint_ok_natFromDigits hv)).2.2.2

theorem claim_C10_witness :
    (parse_pos "1,18446744073709551616".toList =
        .error (valueError "18446744073709551616".toList) ∧
      parse_pos "1,18446744073709551616,2".toList =
        .error (valueError "18446744073709551616".toList)) ∧
      parse_pos "2-18446744073709551616".toList =
        .error (valueError "2-18446744073709551616".toList) := by
  constructor
  · exact claim_C10.1 [['1']] "18446744073709551616".toList ['2']
      (by decide) (by decide)
      (fun p hp => by
        rw [List.mem_singleton] at hp
        subst hp
        exact ⟨(0, 1), rfl⟩)
      ⟨by decide, (⟨by decide, by decide, by decide⟩ : overflowEndpoint "18446744073709551616".toList)⟩
  · exact (claim_C10.1 [] "2-18446744073709551616".toList ['9']
      (by decide) (by decide)
      (fun p hp => absurd hp (List.not_mem_nil p))
      ⟨by decide, Or.inr ⟨⟨2, rfl⟩,
        (⟨by decide, by decide, by decide⟩ : overflowEndpoint "18446744073709551616".toList)⟩⟩).1
